import Mathlib

/-!
Verification development for `tenpy/algorithms/purification_tebd.py`
(class `PurificationTEBD`).

The tensor-algebra collaborator (`np_conserved`), the truncated
factorization (`svd_theta`) and the MPS container (`psi`) are external
to the file under study, so they appear here as abstract, possibly
failing operations (`Except String`), while the control flow, the order
of the state writes, the configuration dispatch and the iteration logic
of `PurificationTEBD` itself are translated statement by statement.
Python exceptions are modelled by `Except.error`; the Python attribute
writes on `psi` and `self._trunc_err_bonds` are modelled as functional
updates of an explicit state record.
-/

namespace PurificationTEBD

/-! ## State and collaborators of `update_bond`

`update_bond(i, U_bond)` (source lines 54-122) reads the two site
tensors adjacent to bond `i` together with the surrounding bond weight
vectors, runs a chain of fallible tensor operations, and only then
writes back: `set_SR(i0, S)`, `set_B(i0, B_L)`, `set_B(i1, B_R)` and
`self._trunc_err_bonds[i] += trunc_err`. -/

/-- Mutable state touched by `update_bond`: the bond weight vectors
(`svs b` is the Schmidt vector on bond `b`; `set_SR(i0, S)` writes bond
`i = i0 + 1`), the site tensors `bs p`, and the per-bond truncation
error accumulators `self._trunc_err_bonds`. -/
structure MPSState (TW TB TK : Type) where
  svs : Nat → TW
  bs : Nat → TB
  truncErrBonds : Nat → TK

/-- Output record of the truncated factorization collaborator
`svd_theta(theta, TEBD_params, inner_labels=...)` (source line 93). -/
structure SvdOut (Th TW TK : Type) where
  U : Th
  S : TW
  V : Th
  trunc_err : TK
  renormalize : TK

/-- Values computed by `update_bond` before any state write: the new
bond weight vector, the two new site tensors and the incremental
truncation error of this single call. -/
structure BondOut (TW TB TK : Type) where
  S : TW
  B_L : TB
  B_R : TB
  trunc_err : TK

/-- Abstract tensor-algebra, state-reading and factorization
collaborators used by `update_bond`.  Each operation may fail with a
leg-naming or shape mismatch, modelled as `Except.error` with a
message. -/
structure Collab (Th TG TU TW TB TK : Type) where
  /-- line 87: `psi.get_theta(i0, n=2)`. -/
  get_theta : MPSState TW TB TK → Nat → Except String Th
  /-- line 106: `psi.get_theta(i0, n=2, formL=0.)`, the wavefunction
  without the old left bond weight folded in. -/
  get_theta_formL0 : MPSState TW TB TK → Nat → Except String Th
  /-- lines 88 and 109: `npc.tensordot(U_bond, theta, ...)`. -/
  apply_Ubond : TG → Th → Except String Th
  /-- lines 166-184: the body of `disentangle_backwards`. -/
  backwards : Th → TG → Except String (Th × Option TU)
  /-- lines 186-215: the body of `disentangle_renyi`. -/
  renyi : Th → Except String (Th × Option TU)
  /-- line 111: `npc.tensordot(U_disent, C, ...)`. -/
  apply_Udis : TU → Th → Except String Th
  /-- line 90: `theta.combine_legs(...)`. -/
  combine_theta : Th → Except String Th
  /-- line 93: `svd_theta(theta, self.TEBD_params, ...)`. -/
  svd_theta : Th → Except String (SvdOut Th TW TK)
  /-- line 97: `V.split_legs(1).ireplace_labels(...)`. -/
  make_BR : Th → Except String TB
  /-- line 113: `C.combine_legs(..., pipes=theta.legs[1])`; the second
  argument is the combined theta whose pipe is reused. -/
  combine_C : Th → Th → Except String Th
  /-- lines 112-117: contraction with `V.conj()`, relabeling, and the
  division by the renormalization scalar. -/
  make_BL : Th → Th → TK → Except String TB

section BondUpdate

variable {Th TG TU TW TB TK : Type}

/-- Message of the `ValueError` raised by `disentangle` for an
unrecognized configuration value (source line 164; Python renders it as
`"Invalid " + "disentangle" + ": got " + repr(value)`, which contains
the offending value verbatim). -/
def dismsg (s : String) : String := "Invalid disentangle: got " ++ s

/-- Source lines 124-164, method `disentangle`: read the
`disentangle` configuration value; `None` is the identity strategy,
`"backwards"` and `"renyi"` dispatch to the corresponding methods, and
any other value raises a `ValueError` naming the value. -/
def disentangle (co : Collab Th TG TU TW TB TK) (cfg : Option String)
    (theta : Th) (Ubond : TG) : Except String (Th × Option TU) :=
  match cfg with
  | none => Except.ok (theta, none)
  | some s =>
      if s = "backwards" then co.backwards theta Ubond
      else if s = "renyi" then co.renyi theta
      else Except.error (dismsg s)

/-- Source lines 83-117 of `update_bond`: everything computed before
the first state write, in source order.  Any failure aborts the whole
computation with the raised error. -/
def update_bond_compute (co : Collab Th TG TU TW TB TK) (cfg : Option String)
    (st : MPSState TW TB TK) (i : Nat) (Ubond : TG) :
    Except String (BondOut TW TB TK) := do
  let theta0 ← co.get_theta st (i - 1)
  let theta1 ← co.apply_Ubond Ubond theta0
  let du ← disentangle co cfg theta1 Ubond
  let theta2 ← co.combine_theta du.1
  let sv ← co.svd_theta theta2
  let bR ← co.make_BR sv.V
  let c0 ← co.get_theta_formL0 st (i - 1)
  let c1 ← co.apply_Ubond Ubond c0
  let c2 ← match du.2 with
    | none => pure c1
    | some ud => co.apply_Udis ud c1
  let cc ← co.combine_C c2 theta2
  let bL ← co.make_BL cc sv.V sv.renormalize
  pure (BondOut.mk sv.S bL bR sv.trunc_err)

/-- Source lines 118-121: the four state writes of `update_bond`,
performed only after every fallible operation has succeeded:
`set_SR(i0, S)`, `set_B(i0, B_L)`, `set_B(i1, B_R)` and
`_trunc_err_bonds[i] += trunc_err`. -/
def write_bond [Add TK] (st : MPSState TW TB TK) (i : Nat)
    (out : BondOut TW TB TK) : MPSState TW TB TK where
  svs := Function.update st.svs i out.S
  bs := Function.update (Function.update st.bs (i - 1) out.B_L) i out.B_R
  truncErrBonds :=
    Function.update st.truncErrBonds i (st.truncErrBonds i + out.trunc_err)

/-- Source lines 54-122, method `update_bond(i, U_bond)`: run the
computation; on success commit the writes and return the incremental
truncation error of this call, on failure propagate the error leaving
the state untouched. -/
def update_bond [Add TK] (co : Collab Th TG TU TW TB TK) (cfg : Option String)
    (st : MPSState TW TB TK) (i : Nat) (Ubond : TG) :
    Except String TK × MPSState TW TB TK :=
  match update_bond_compute co cfg st i Ubond with
  | Except.error e => (Except.error e, st)
  | Except.ok out => (Except.ok out.trunc_err, write_bond st i out)

/-- Helper: a failing `update_bond` returns the input state verbatim. -/
theorem update_bond_state_of_error [Add TK] (co : Collab Th TG TU TW TB TK)
    (cfg : Option String) (st : MPSState TW TB TK) (i : Nat) (Ubond : TG)
    (e : String) (h : (update_bond co cfg st i Ubond).1 = Except.error e) :
    (update_bond co cfg st i Ubond).2 = st := by
  unfold update_bond at h ⊢
  cases hc : update_bond_compute co cfg st i Ubond with
  | error e2 => simp [hc]
  | ok out => rw [hc] at h; exact absurd h (by simp)

/-- Claim C1: if `update_bond` fails with an error, the site tensor at
position `i - 1`, the site tensor at position `i` and the bond weight
vector at bond `i` are exactly as they were before the call; nothing is
partially written. -/
theorem update_bond_atomic_on_error [Add TK] (co : Collab Th TG TU TW TB TK)
    (cfg : Option String) (st : MPSState TW TB TK) (i : Nat) (Ubond : TG)
    (e : String) (h : (update_bond co cfg st i Ubond).1 = Except.error e) :
    (update_bond co cfg st i Ubond).2.bs (i - 1) = st.bs (i - 1) ∧
    (update_bond co cfg st i Ubond).2.bs i = st.bs i ∧
    (update_bond co cfg st i Ubond).2.svs i = st.svs i := by
  rw [update_bond_state_of_error co cfg st i Ubond e h]
  exact ⟨rfl, rfl, rfl⟩

end BondUpdate

/-! ## Concrete collaborator instances

Used as evaluation witnesses: `failCollab` fails at the very first
contraction (a leg mismatch in `get_theta`), `okCollab` succeeds
everywhere with trivial tensors and an incremental truncation error of
`1/2` per call. -/

/-- State with trivial tensors and rational accumulators. -/
def st0 : MPSState Unit Unit ℚ where
  svs := fun _ => ()
  bs := fun _ => ()
  truncErrBonds := fun _ => 0

/-- Collaborator set whose very first operation fails. -/
def failCollab : Collab Unit Unit Unit Unit Unit ℚ where
  get_theta := fun _ _ => Except.error "leg mismatch"
  get_theta_formL0 := fun _ _ => Except.ok ()
  apply_Ubond := fun _ _ => Except.ok ()
  backwards := fun _ _ => Except.ok ((), none)
  renyi := fun _ => Except.ok ((), none)
  apply_Udis := fun _ _ => Except.ok ()
  combine_theta := fun _ => Except.ok ()
  svd_theta := fun _ => Except.ok (SvdOut.mk () () () (1/2) 1)
  make_BR := fun _ => Except.ok ()
  combine_C := fun _ _ => Except.ok ()
  make_BL := fun _ _ _ => Except.ok ()

/-- Collaborator set whose operations all succeed. -/
def okCollab : Collab Unit Unit Unit Unit Unit ℚ where
  get_theta := fun _ _ => Except.ok ()
  get_theta_formL0 := fun _ _ => Except.ok ()
  apply_Ubond := fun _ _ => Except.ok ()
  backwards := fun _ _ => Except.ok ((), none)
  renyi := fun _ => Except.ok ((), none)
  apply_Udis := fun _ _ => Except.ok ()
  combine_theta := fun _ => Except.ok ()
  svd_theta := fun _ => Except.ok (SvdOut.mk () () () (1/2) 1)
  make_BR := fun _ => Except.ok ()
  combine_C := fun _ _ => Except.ok ()
  make_BL := fun _ _ _ => Except.ok ()

/-- Witness for C1: a concrete failing call leaves the three pieces of
state unchanged. -/
theorem update_bond_atomic_on_error_witness :
    (update_bond failCollab none st0 1 ()).2.bs 0 = st0.bs 0 ∧
    (update_bond failCollab none st0 1 ()).2.bs 1 = st0.bs 1 ∧
    (update_bond failCollab none st0 1 ()).2.svs 1 = st0.svs 1 :=
  update_bond_atomic_on_error failCollab none st0 1 () "leg mismatch" rfl

section BondUpdateProps

variable {Th TG TU TW TB TK : Type}

/-- Helper: success of an `Except` bind factors through success of the
first component. -/
theorem except_bind_ok {α β : Type} {x : Except String α}
    {f : α → Except String β} {b : β} (h : x.bind f = Except.ok b) :
    ∃ a, x = Except.ok a ∧ f a = Except.ok b := by
  cases x with
  | error e => exact absurd h (by simp [Except.bind])
  | ok a => exact ⟨a, rfl, h⟩

/-- Helper: a successful `update_bond_compute` takes its incremental
truncation error from a successful `svd_theta` call. -/
theorem compute_trunc_err_from_svd (co : Collab Th TG TU TW TB TK)
    (cfg : Option String) (st : MPSState TW TB TK) (i : Nat) (Ubond : TG)
    (out : BondOut TW TB TK)
    (h : update_bond_compute co cfg st i Ubond = Except.ok out) :
    ∃ th sv, co.svd_theta th = Except.ok sv ∧ out.trunc_err = sv.trunc_err := by
  unfold update_bond_compute at h
  simp only [bind] at h
  obtain ⟨theta0, h0, h⟩ := except_bind_ok h
  obtain ⟨theta1, h1, h⟩ := except_bind_ok h
  obtain ⟨du, h2, h⟩ := except_bind_ok h
  obtain ⟨duth, duu⟩ := du
  obtain ⟨theta2, h3, h⟩ := except_bind_ok h
  obtain ⟨sv, h4, h⟩ := except_bind_ok h
  obtain ⟨bR, h5, h⟩ := except_bind_ok h
  obtain ⟨c0, h6, h⟩ := except_bind_ok h
  obtain ⟨c1, h7, h⟩ := except_bind_ok h
  refine ⟨theta2, sv, h4, ?_⟩
  cases duu with
  | none =>
      obtain ⟨c2, h8, h⟩ := except_bind_ok h
      obtain ⟨cc, h9, h⟩ := except_bind_ok h
      obtain ⟨bL, h10, h⟩ := except_bind_ok h
      simp only [pure, Except.pure, Except.ok.injEq] at h
      rw [← h]
  | some ud =>
      obtain ⟨c2, h8, h⟩ := except_bind_ok h
      obtain ⟨cc, h9, h⟩ := except_bind_ok h
      obtain ⟨bL, h10, h⟩ := except_bind_ok h
      simp only [pure, Except.pure, Except.ok.injEq] at h
      rw [← h]

/-- Claim C10: a successful `update_bond` call returns the incremental
truncation error of this single truncated factorization, and the
per-bond accumulator is updated to the prior total plus exactly this
increment (so the returned value is the increment, not the accumulated
total). -/
theorem update_bond_returns_increment [Add TK]
    (co : Collab Th TG TU TW TB TK) (cfg : Option String)
    (st : MPSState TW TB TK) (i : Nat) (Ubond : TG) (t : TK)
    (h : (update_bond co cfg st i Ubond).1 = Except.ok t) :
    (∃ th sv, co.svd_theta th = Except.ok sv ∧ t = sv.trunc_err) ∧
    (update_bond co cfg st i Ubond).2.truncErrBonds i =
      st.truncErrBonds i + t := by
  unfold update_bond at h ⊢
  cases hc : update_bond_compute co cfg st i Ubond with
  | error e => rw [hc] at h; exact absurd h (by simp)
  | ok out =>
    rw [hc] at h
    have ht : t = out.trunc_err := by
      have := h
      simp only [Except.ok.injEq] at this
      exact this.symm
    subst ht
    refine ⟨compute_trunc_err_from_svd co cfg st i Ubond out hc, ?_⟩
    simp [write_bond]

/-- Witness for C10: a concrete successful call returns `1/2` and adds
it to the accumulator. -/
theorem update_bond_returns_increment_witness :
    (update_bond okCollab none st0 1 ()).2.truncErrBonds 1 =
      st0.truncErrBonds 1 + (1/2 : ℚ) :=
  (update_bond_returns_increment okCollab none st0 1 () (1/2) rfl).2

/-- Sequence of `update_bond` calls `(bond, gate)`, threading the state
through; a failing call leaves the state unchanged and the sequence
continues (claim C5 only speaks about successful calls, see
`CallsOk`). -/
def runCalls [Add TK] (co : Collab Th TG TU TW TB TK) (cfg : Option String) :
    List (Nat × TG) → MPSState TW TB TK → MPSState TW TB TK
  | [], st => st
  | c :: rest, st => runCalls co cfg rest ((update_bond co cfg st c.1 c.2).2)

/-- Every call of the sequence succeeds on the state it actually sees. -/
def CallsOk [Add TK] (co : Collab Th TG TU TW TB TK) (cfg : Option String) :
    List (Nat × TG) → MPSState TW TB TK → Prop
  | [], _ => True
  | c :: rest, st =>
      (∃ t, (update_bond co cfg st c.1 c.2).1 = Except.ok t) ∧
      CallsOk co cfg rest ((update_bond co cfg st c.1 c.2).2)

/-- Helper: one `update_bond` call never decreases any truncation-error
accumulator, given the factorization contract that incremental errors
are non-negative. -/
theorem truncErr_mono_step [OrderedAddCommMonoid TK]
    (co : Collab Th TG TU TW TB TK)
    (hsvd : ∀ th sv, co.svd_theta th = Except.ok sv → 0 ≤ sv.trunc_err)
    (cfg : Option String) (st : MPSState TW TB TK) (i : Nat) (Ubond : TG)
    (b : Nat) :
    st.truncErrBonds b ≤ (update_bond co cfg st i Ubond).2.truncErrBonds b := by
  unfold update_bond
  cases hc : update_bond_compute co cfg st i Ubond with
  | error e => exact le_refl _
  | ok out =>
    obtain ⟨th, sv, hth, hte⟩ := compute_trunc_err_from_svd co cfg st i Ubond out hc
    have h0 : 0 ≤ out.trunc_err := hte ▸ hsvd th sv hth
    show st.truncErrBonds b ≤ (write_bond st i out).truncErrBonds b
    unfold write_bond
    by_cases hb : b = i
    · subst hb
      simp only [Function.update_same]
      exact le_add_of_nonneg_right h0
    · simp only [Function.update_noteq hb]
      exact le_refl _

/-- Helper: across any call sequence the accumulators never decrease. -/
theorem truncErr_mono_run [OrderedAddCommMonoid TK]
    (co : Collab Th TG TU TW TB TK)
    (hsvd : ∀ th sv, co.svd_theta th = Except.ok sv → 0 ≤ sv.trunc_err)
    (cfg : Option String) (calls : List (Nat × TG)) (st : MPSState TW TB TK)
    (b : Nat) :
    st.truncErrBonds b ≤ (runCalls co cfg calls st).truncErrBonds b := by
  induction calls generalizing st with
  | nil => exact le_refl _
  | cons c rest ih =>
    exact le_trans (truncErr_mono_step co hsvd cfg st c.1 c.2 b) (ih _)

/-- Helper: `runCalls` over an appended list is the composition. -/
theorem runCalls_append [Add TK] (co : Collab Th TG TU TW TB TK)
    (cfg : Option String) (l1 l2 : List (Nat × TG)) (st : MPSState TW TB TK) :
    runCalls co cfg (l1 ++ l2) st = runCalls co cfg l2 (runCalls co cfg l1 st) := by
  induction l1 generalizing st with
  | nil => rfl
  | cons c rest ih => exact ih _

/-- Claim C5: for every bond `b` and every sequence of successful
`update_bond` calls with no reset in between, the stored truncation
error accumulator is monotonically non-decreasing along the sequence
(each call adds its non-negative incremental error to the prior value
rather than replacing it). -/
theorem trunc_err_accumulator_monotone [OrderedAddCommMonoid TK]
    (co : Collab Th TG TU TW TB TK) (cfg : Option String)
    (hsvd : ∀ th sv, co.svd_theta th = Except.ok sv → 0 ≤ sv.trunc_err)
    (calls : List (Nat × TG)) (st : MPSState TW TB TK)
    (hok : CallsOk co cfg calls st) (b n m : Nat) (hnm : n ≤ m) :
    (runCalls co cfg (calls.take n) st).truncErrBonds b ≤
      (runCalls co cfg (calls.take m) st).truncErrBonds b := by
  have hm : calls.take m = calls.take n ++ (calls.drop n).take (m - n) := by
    rw [← List.take_add]
    congr 1
    omega
  rw [hm, runCalls_append]
  exact truncErr_mono_run co hsvd cfg _ _ b

/-- Witness for C5: two concrete successful calls on bond 1; the
accumulator after one call is at most the accumulator after both. -/
theorem trunc_err_accumulator_monotone_witness :
    (runCalls okCollab none ([(1, ()), (1, ())].take 1) st0).truncErrBonds 1 ≤
      (runCalls okCollab none ([(1, ()), (1, ())].take 2) st0).truncErrBonds 1 :=
  trunc_err_accumulator_monotone okCollab none
    (by intro th sv h; cases h; norm_num)
    [(1, ()), (1, ())] st0
    ⟨⟨1/2, rfl⟩, ⟨1/2, rfl⟩, trivial⟩ 1 1 2 (by norm_num)

/-- Helper: with an unrecognized `disentangle` configuration value the
computation of `update_bond` always fails (either at an earlier tensor
operation or at the dispatch itself). -/
theorem compute_invalid_cfg (s : String) (h1 : s ≠ "backwards")
    (h2 : s ≠ "renyi") (co : Collab Th TG TU TW TB TK)
    (st : MPSState TW TB TK) (i : Nat) (g : TG) :
    ∃ e, update_bond_compute co (some s) st i g = Except.error e := by
  unfold update_bond_compute
  simp only [bind]
  cases h0 : co.get_theta st (i - 1) with
  | error e => exact ⟨e, by simp [Except.bind]⟩
  | ok theta0 =>
    cases h3 : co.apply_Ubond g theta0 with
    | error e => exact ⟨e, by simp [Except.bind, h3]⟩
    | ok theta1 =>
      refine ⟨dismsg s, ?_⟩
      simp [Except.bind, h3, disentangle, h1, h2]

/-- Claim C7: for every configured `disentangle` value other than
absent, `"backwards"` or `"renyi"`, the dispatch fails with a
configuration error whose message contains the unrecognized value, and
`update_bond` under such a configuration never succeeds and never
modifies the state.  (The Python message is
`"Invalid " + "disentangle" + ": got " + repr(value)`.) -/
theorem invalid_disentangle_config (s : String) (h1 : s ≠ "backwards")
    (h2 : s ≠ "renyi") [Add TK] (co : Collab Th TG TU TW TB TK) :
    (∀ th g, disentangle co (some s) th g = Except.error (dismsg s)) ∧
    (∃ pre post, dismsg s = pre ++ s ++ post) ∧
    (∀ (st : MPSState TW TB TK) (i : Nat) (g : TG),
      (update_bond co (some s) st i g).2 = st ∧
      ∃ e, (update_bond co (some s) st i g).1 = Except.error e) := by
  refine ⟨?_, ⟨"Invalid disentangle: got ", "", by simp [dismsg]⟩, ?_⟩
  · intro th g
    simp [disentangle, h1, h2]
  · intro st i g
    obtain ⟨e, he⟩ := compute_invalid_cfg s h1 h2 co st i g
    constructor
    · unfold update_bond
      rw [he]
    · exact ⟨e, by unfold update_bond; rw [he]⟩

/-- Witness for C7: the concrete value `"unknown"` from the spec
scenario. -/
theorem invalid_disentangle_config_witness :
    disentangle okCollab (some "unknown") () () =
      Except.error (dismsg "unknown") ∧
    (∃ pre post, dismsg "unknown" = pre ++ "unknown" ++ post) ∧
    (update_bond okCollab (some "unknown") st0 1 ()).2 = st0 := by
  obtain ⟨ha, hb, hc⟩ :=
    invalid_disentangle_config "unknown" (by decide) (by decide) okCollab
  exact ⟨ha () (), hb, (hc st0 1 ()).1⟩

/-- Claim C8: the absent disentangle strategy is the identity: the
input wavefunction is returned unchanged together with an absent
unitary. -/
theorem disentangle_none_id (co : Collab Th TG TU TW TB TK) (th : Th)
    (g : TG) : disentangle co none th g = Except.ok (th, none) := rfl

end BondUpdateProps

/-! ## Iteration control of `disentangle_renyi` (source lines 186-215)

The entropy-and-update computation `disentangle_renyi_iter` is
abstracted into a step function `step : Uni → K × Uni`; the loop
control, the identity start and the break criterion are translated
directly. -/

section RenyiLoop

variable {K : Type} [LinearOrderedField K] {Uni Th : Type}

/-- Break test of the loop in `disentangle_renyi` (source line 209):
`abs(Sold - S) < eps`.  Initially `Sold = np.inf` (line 206), for which
the comparison is false against any finite entropy value; the absent
previous value is modelled as `none`. -/
def convTest (eps : K) : Option K → K → Bool
  | none, _ => false
  | some sold, s => decide (|sold - s| < eps)

/-- Source lines 206-211, the loop of `disentangle_renyi`: for at most
`n` iterations, compute `S, U = disentangle_renyi_iter(theta, U)` and
break when `abs(Sold - S) < eps`; the trailing `Sold, S = S, Sold`
swap only matters through `Sold = S`, since `S` is overwritten at the
top of the next iteration.  Returns the number of iterations actually
executed and the final unitary. -/
def renyiLoop (step : Uni → K × Uni) (eps : K) :
    Nat → Option K → Uni → Nat × Uni
  | 0, _, u => (0, u)
  | n + 1, sold, u =>
      let su := step u
      if convTest eps sold su.1 then (1, su.2)
      else
        let r := renyiLoop step eps n (some su.1) su.2
        (r.1 + 1, r.2)

/-- Source lines 186-215, method `disentangle_renyi`: run the bounded
loop starting from the identity unitary `one` (line 204,
`npc.outer(npc.eye_like(theta, q0), npc.eye_like(theta, q1))`), then
apply the final unitary to `theta` (line 212) and return both;
non-convergence raises nothing. -/
def disentangle_renyi (applyU : Uni → Th → Th) (one : Uni)
    (step : Uni → K × Uni) (max_iter : Nat) (eps : K) (theta : Th) :
    Th × Uni :=
  let r := renyiLoop step eps max_iter none one
  (applyU r.2 theta, r.2)

/-- Unitaries held by the loop variable `U`: `Useq 0` is the identity
start, `Useq (n + 1)` the Procrustes update produced from `Useq n`. -/
def Useq (step : Uni → K × Uni) (one : Uni) : Nat → Uni
  | 0 => one
  | n + 1 => (step (Useq step one n)).2

/-- Renyi-2 entropy value computed by the iteration numbered `n + 1`
(1-indexed), that is the `S` of `disentangle_renyi_iter(theta, Useq n)`. -/
def Sseq (step : Uni → K × Uni) (one : Uni) (n : Nat) : K :=
  (step (Useq step one n)).1

/-- The break condition fires at iteration `j` (1-indexed): the
iteration has a predecessor and the two consecutive entropy values
differ by less than `eps`. -/
def stopsAt (step : Uni → K × Uni) (one : Uni) (eps : K) (j : Nat) : Prop :=
  2 ≤ j ∧ |Sseq step one (j - 2) - Sseq step one (j - 1)| < eps

/-- Previous entropy value seen by the loop when it is about to run
overall iteration `k + 1`. -/
def prevOf (step : Uni → K × Uni) (one : Uni) : Nat → Option K
  | 0 => none
  | k + 1 => some (Sseq step one k)

/-- Helper: full characterization of the loop run with fuel `n`
starting just before overall iteration `k + 1`: it executes `c ≤ n`
iterations, ends holding `Useq (k + c)`, breaks at no iteration before
`k + c`, and if it ended with fuel to spare then the break condition
fired at iteration `k + c`. -/
theorem renyiLoop_spec (step : Uni → K × Uni) (one : Uni) (eps : K) :
    ∀ n k, ∃ c,
      renyiLoop step eps n (prevOf step one k) (Useq step one k)
        = (c, Useq step one (k + c)) ∧
      c ≤ n ∧
      (∀ j, k < j → j < k + c → ¬ stopsAt step one eps j) ∧
      (c < n → stopsAt step one eps (k + c)) ∧
      (1 ≤ n → 1 ≤ c) := by
  intro n
  induction n with
  | zero =>
      intro k
      exact ⟨0, rfl, le_refl 0, fun j h1 h2 => absurd h1 (by omega),
        fun h => absurd h (by omega), fun h => absurd h (by omega)⟩
  | succ n ih =>
      intro k
      have hsu1 : (step (Useq step one k)).1 = Sseq step one k := rfl
      have hsu2 : (step (Useq step one k)).2 = Useq step one (k + 1) := rfl
      by_cases hb : convTest eps (prevOf step one k) (Sseq step one k)
      · -- the break condition fires at overall iteration k + 1
        have hk : 2 ≤ k + 1 := by
          cases k with
          | zero => exact absurd hb (by simp [convTest, prevOf])
          | succ k0 => omega
        have habs : |Sseq step one (k - 1) - Sseq step one k| < eps := by
          cases k with
          | zero => exact absurd hb (by simp [convTest, prevOf])
          | succ k0 =>
              have := of_decide_eq_true (by simpa [convTest, prevOf] using hb)
              simpa using this
        refine ⟨1, ?_, by omega, fun j h1 h2 => absurd h1 (by omega),
          fun _ => ⟨hk, ?_⟩, fun _ => le_refl 1⟩
        · simp only [renyiLoop, hsu1, hb, if_true, hsu2]
        · simpa using habs
      · -- no break: recurse with Sold = Sseq k from overall iteration k + 2 on
        obtain ⟨c0, hr, hc0, hnostop, hstop, _⟩ := ih (k + 1)
        have hprev : prevOf step one (k + 1) = some (Sseq step one k) := rfl
        refine ⟨c0 + 1, ?_, by omega, ?_, ?_, fun _ => by omega⟩
        · have heq : renyiLoop step eps (n + 1) (prevOf step one k)
              (Useq step one k)
              = (c0 + 1, Useq step one (k + 1 + c0)) := by
            simp only [renyiLoop, hsu1, hb, if_false, Bool.false_eq_true, hsu2]
            rw [← hprev, hr]
          rw [show k + 1 + c0 = k + (c0 + 1) from by omega] at heq
          exact heq
        · intro j h1 h2
          by_cases hj : j = k + 1
          · subst hj
            intro hstopj
            obtain ⟨h2le, habs⟩ := hstopj
            have hk1 : 1 ≤ k := by omega
            cases k with
            | zero => omega
            | succ k0 =>
                have : ¬ |Sseq step one k0 - Sseq step one (k0 + 1)| < eps := by
                  intro hcon
                  exact hb (by simp [convTest, prevOf, hcon])
                exact this (by simpa using habs)
          · exact hnostop j (by omega) (by omega)
        · intro hlt
          have := hstop (by omega)
          have hidx : k + 1 + c0 = k + (c0 + 1) := by omega
          rwa [hidx] at this

/-- Claim C3: `disentangle_renyi` starts from the identity unitary,
performs at most `max_iter` iterations, breaks as soon as two
consecutive Renyi-2 entropy values differ by less than `eps` (no
earlier iteration satisfies the break condition, and if the loop ended
before exhausting the cap then the condition fired at the last executed
iteration), and in every case, including reaching the cap without
convergence, returns the last computed unitary and the transformed
wavefunction rather than raising an error. -/
theorem disentangle_renyi_control (applyU : Uni → Th → Th) (one : Uni)
    (step : Uni → K × Uni) (max_iter : Nat) (eps : K) (theta : Th) :
    ∃ c,
      disentangle_renyi applyU one step max_iter eps theta
        = (applyU (Useq step one c) theta, Useq step one c) ∧
      Useq step one 0 = one ∧
      c ≤ max_iter ∧
      (∀ j, j < c → ¬ stopsAt step one eps j) ∧
      (c < max_iter → stopsAt step one eps c) := by
  obtain ⟨c, hr, hc, hnostop, hstop, _⟩ := renyiLoop_spec step one eps max_iter 0
  simp only [Nat.zero_add] at hr hnostop hstop
  refine ⟨c, ?_, rfl, hc, ?_, hstop⟩
  · unfold disentangle_renyi
    rw [show prevOf step one 0 = none from rfl] at hr
    rw [show Useq step one 0 = one from rfl] at hr
    rw [hr]
  · intro j hj
    cases Nat.eq_zero_or_pos j with
    | inl h0 =>
        subst h0
        intro hstop0
        exact absurd hstop0.1 (by omega)
    | inr hpos => exact hnostop j hpos hj

end RenyiLoop

/-! ## Imaginary-time driver `run_imaginary` (source lines 34-52) -/

section ImagDriver

variable {K : Type} [LinearOrderedField K] [FloorRing K]

/-- Python `int()` applied to a real value truncates toward zero. -/
def pyInt (x : K) : Int := if 0 ≤ x then ⌊x⌋ else ⌈x⌉

/-- Trace of the collaborator calls issued by `run_imaginary`: the
`calc_U(order, delta_t, type_evo)` invocations and the
`update(N_steps)` invocations, in order. -/
structure ImagTrace (K : Type) where
  calc_U_calls : List (Nat × K × String)
  update_calls : List Int

/-- Source lines 34-47, method `run_imaginary(beta)` with configured
time step `dt` and expansion order `order`: build the imaginary-time
evolution operators once via `calc_U(order, dt, type_evo=imag)`, then
call `update(N_steps=int(beta / delta_t + 0.5))` once.  The verbose
diagnostics of lines 48-52 are read-only and omitted. -/
def run_imaginary (dt : K) (order : Nat) (beta : K) : ImagTrace K where
  calc_U_calls := [(order, dt, "imag")]
  update_calls := [pyInt (beta / dt + 1/2)]

/-- Counterexample to claim C9 as stated for every `beta`: with the
configured `dt = 1/10` and `beta = -27/100`, the code truncates
`beta/dt + 0.5 = -2.2` toward zero and performs `-2` sweeps, while
`round(beta/dt) = round(-2.7) = -3`. -/
theorem run_imaginary_round_counterexample :
    (run_imaginary (1/10 : ℚ) 2 (-27/100)).update_calls ≠
      [round ((-27/100 : ℚ) / (1/10))] := by
  have harg : ((-27/100 : ℚ) / (1/10) + 1/2) = -11/5 := by norm_num
  have hpy : pyInt ((-27/100 : ℚ) / (1/10) + 1/2) = -2 := by
    rw [harg, pyInt, if_neg (by norm_num)]
    rw [Int.ceil_eq_iff]
    constructor <;> norm_num
  have hrd : round ((-27/100 : ℚ) / (1/10)) = -3 := by
    rw [round_eq, harg, Int.floor_eq_iff]
    constructor <;> norm_num
  simp only [run_imaginary, ne_eq, List.cons.injEq, and_true, hpy, hrd]
  decide

/-- Claim C9 (amended): whenever `beta / dt + 1/2` is non-negative —
in particular for every `beta ≥ 0` with time step `dt > 0` —
`run_imaginary(beta)` builds the imaginary-time evolution operator set
exactly once from the configured `dt` and expansion order, and then
performs `round(beta / dt)` full sweeps of bond updates. -/
theorem run_imaginary_spec (dt : K) (order : Nat) (beta : K)
    (h : 0 ≤ beta / dt + 1/2) :
    (run_imaginary dt order beta).calc_U_calls = [(order, dt, "imag")] ∧
    (run_imaginary dt order beta).update_calls = [round (beta / dt)] := by
  refine ⟨rfl, ?_⟩
  simp only [run_imaginary, pyInt, if_pos h]
  rw [round_eq]

/-- Witness for the amended C9 at `dt = 1/10`, `beta = 27/100`. -/
theorem run_imaginary_spec_witness :
    (run_imaginary (1/10 : ℚ) 2 (27/100)).calc_U_calls =
      [(2, 1/10, "imag")] ∧
    (run_imaginary (1/10 : ℚ) 2 (27/100)).update_calls =
      [round ((27/100 : ℚ) / (1/10))] :=
  run_imaginary_spec (1/10) 2 (27/100) (by norm_num)

end ImagDriver

/-! ## Stable recomposition of the left site tensor (lines 96-117)

After the truncated factorization `theta = U S V + discarded`, the
naive recipe for the new left tensor divides by the old bond weight
`SL` (commented out in the source, lines 98-102); the code instead
contracts `C` (the transformed wavefunction built without `SL`,
line 106) with the conjugate of `V` (lines 112-115).  In matrix form
over the combined legs `(vL.p0.q0)` and `(vR.p1.q1)` both recipes are
matrices from the left combined leg to the new bond leg. -/

section StableRecomposition

open Matrix

variable {R : Type} [CommRing R] [StarRing R]
variable {L N Kp : Type} [Fintype L] [Fintype N] [Fintype Kp]
variable [DecidableEq L] [DecidableEq Kp]

/-- Source lines 112-115: the stable left output,
`npc.tensordot(C.combine_legs(...), V.conj(), axes=...)`, which in
matrix form is `C * Vᴴ`. -/
def B_L_stable (C : Matrix L N R) (V : Matrix Kp N R) : Matrix L Kp R :=
  C * Vᴴ

/-- Source lines 99-102, the naive recipe quoted in the comment:
`B_L = SL**(-1) U S`, i.e. scale the columns of `U` by the new weights
`S` (`U.iscale_axis(S, vR)`) and the rows by the entrywise inverse
`sli` of the old bond weight (`iscale_axis(SL**(-1), vL)`). -/
def B_L_naive (sli : L → R) (U : Matrix L Kp R) (S : Kp → R) :
    Matrix L Kp R :=
  Matrix.diagonal sli * U * Matrix.diagonal S

/-- Claim C2: if the old bond weight `sl` is invertible (entrywise
inverse `sli`), the gate- and disentangler-transformed wavefunction
satisfies `theta = diagonal sl * C` (i.e. `C` is the same wavefunction
built without the old weight folded in, line 106-111), the truncated
factorization returns `theta = U S V + E` with orthonormal kept rows
`V Vᴴ = 1` and discarded part orthogonal to the kept right-singular
vectors `E Vᴴ = 0`, and the kept singular subspace spans the relevant
range of `C` (`C (Vᴴ V) = C`), then the stable recipe `C Vᴴ` equals
the naive recipe `SL⁻¹ U S`. -/
theorem stable_left_eq_naive (sl sli : L → R) (C : Matrix L N R)
    (U : Matrix L Kp R) (S : Kp → R) (V : Matrix Kp N R) (E : Matrix L N R)
    (hsl : ∀ l, sli l * sl l = 1)
    (htheta : Matrix.diagonal sl * C = U * Matrix.diagonal S * V + E)
    (hVV : V * Vᴴ = 1) (hEV : E * Vᴴ = 0)
    (hspan : C * (Vᴴ * V) = C) :
    B_L_stable C V = B_L_naive sli U S := by
  have hdiag : Matrix.diagonal sli * Matrix.diagonal sl = (1 : Matrix L L R) := by
    rw [Matrix.diagonal_mul_diagonal]
    rw [show (fun i => sli i * sl i) = fun _ => (1 : R) from funext hsl]
    exact Matrix.diagonal_one
  have hC : C = Matrix.diagonal sli * (U * Matrix.diagonal S * V + E) := by
    rw [← htheta, ← Matrix.mul_assoc, hdiag, Matrix.one_mul]
  calc B_L_stable C V = C * Vᴴ := rfl
    _ = Matrix.diagonal sli * (U * Matrix.diagonal S * V + E) * Vᴴ := by
        rw [← hC]
    _ = Matrix.diagonal sli * (U * Matrix.diagonal S * (V * Vᴴ) + E * Vᴴ) := by
        rw [Matrix.mul_assoc (Matrix.diagonal sli), Matrix.add_mul,
          Matrix.mul_assoc (U * Matrix.diagonal S)]
    _ = Matrix.diagonal sli * (U * Matrix.diagonal S) := by
        rw [hVV, hEV, Matrix.mul_one, add_zero]
    _ = B_L_naive sli U S := by
        rw [B_L_naive, Matrix.mul_assoc]

/-- Witness for C2 at a concrete one-dimensional rational instance. -/
theorem stable_left_eq_naive_witness :
    B_L_stable (1 : Matrix (Fin 1) (Fin 1) ℚ) (1 : Matrix (Fin 1) (Fin 1) ℚ)
      = B_L_naive (fun _ => 1) (1 : Matrix (Fin 1) (Fin 1) ℚ) (fun _ => 1) :=
  stable_left_eq_naive (fun _ => 1) (fun _ => 1) 1 1 (fun _ => 1) 1 0
    (fun _ => by norm_num)
    (by simp)
    (by simp) (by simp)
    (by simp)

end StableRecomposition

/-! ## Backwards disentangler (source lines 166-184)

A two-site wavefunction with trivial virtual legs is a matrix from the
combined physical leg `(p0.p1)` to the combined auxiliary leg
`(q0.q1)`; both legs range over the same index set because purification
doubles each physical site. -/

section Backwards

open Matrix

variable {R : Type} [CommRing R] [StarRing R]
variable {I : Type} [Fintype I] [DecidableEq I]

/-- Source line 88: `npc.tensordot(U_bond, theta, axes=([p0*, p1*],
[p0, p1]))`, the gate contracted onto the physical legs; in matrix
form over the combined legs this is `G * theta`. -/
def applyGate (G theta : Matrix I I R) : Matrix I I R := G * theta

/-- Source line 183: `npc.tensordot(U, theta, axes=([q0*, q1*],
[q0, q1]))`, an auxiliary operator contracted onto the auxiliary legs:
the entry at `(p, q)` sums `U q qp * theta p qp`. -/
def applyAux (U theta : Matrix I I R) : Matrix I I R :=
  fun p q => ∑ qp, U q qp * theta p qp

/-- Source line 182: `U_bond.conj().ireplace_labels([p0*, p1*, p0,
p1], [q0, q1, q0*, q1*])`.  `npc.conj` conjugates the entries and
toggles the star on every leg label without moving any axis, so the
resulting auxiliary operator is the entrywise conjugate of the gate. -/
def backwardsU (G : Matrix I I R) : Matrix I I R := G.map star

/-- Source lines 166-184, method `disentangle_backwards`: a documented
no-op under imaginary-time evolution (line 180), otherwise contract
`backwardsU` onto the auxiliary legs and return it as the used
unitary. -/
def disentangle_backwards (type_evo : String) (G theta : Matrix I I R) :
    Matrix I I R × Option (Matrix I I R) :=
  if type_evo = "imag" then (theta, none)
  else (applyAux (backwardsU G) theta, some (backwardsU G))

/-- The infinite-temperature two-site wavefunction whose auxiliary
sector is maximally entangled with the physical sector,
`theta = c * delta_{p0 q0} * delta_{p1 q1}` (docstring line 171): a
scalar multiple of the identity over the combined legs. -/
def thetaMaxEnt (c : R) : Matrix I I R := c • (1 : Matrix I I R)

/-- Helper: contracting an auxiliary operator is right multiplication
by its transpose. -/
theorem applyAux_eq_mul (U theta : Matrix I I R) :
    applyAux U theta = theta * Uᵀ := by
  funext p q
  simp only [applyAux, Matrix.mul_apply, Matrix.transpose_apply]
  exact Finset.sum_congr rfl fun qp _ => mul_comm _ _

/-- Helper: the transpose of the backwards operator is the conjugate
transpose of the gate. -/
theorem backwardsU_transpose (G : Matrix I I R) : (backwardsU G)ᵀ = Gᴴ := by
  funext i j
  simp [backwardsU, Matrix.transpose_apply, Matrix.map_apply,
    Matrix.conjTranspose_apply]

/-- Claim C6: under real-time evolution (any `type_evo` other than
`"imag"`), for a maximally entangled two-site wavefunction
`thetaMaxEnt c` and a unitary gate `G`, applying the gate to the
physical legs and then the backwards strategy on the auxiliary legs
reproduces the pre-gate wavefunction exactly. -/
theorem backwards_roundtrip (type_evo : String) (hreal : type_evo ≠ "imag")
    (G : Matrix I I R) (hG : G * Gᴴ = 1) (c : R) :
    (disentangle_backwards type_evo G (applyGate G (thetaMaxEnt c))).1
      = thetaMaxEnt c := by
  simp only [disentangle_backwards, if_neg hreal]
  rw [applyAux_eq_mul, backwardsU_transpose, applyGate, thetaMaxEnt,
    Matrix.mul_smul, Matrix.mul_one, Matrix.smul_mul, hG]

/-- Witness for C6 at a concrete rational instance with the identity
gate on a two-dimensional combined physical leg. -/
theorem backwards_roundtrip_witness :
    (disentangle_backwards "real" (1 : Matrix (Fin 2) (Fin 2) ℚ)
      (applyGate 1 (thetaMaxEnt 3))).1 = thetaMaxEnt 3 :=
  backwards_roundtrip "real" (by decide) 1 (by simp) 3

end Backwards

/-! ## Renyi-2 entropy monotonicity of the iterative optimizer
(source lines 186-271)

The two-site wavefunction `theta` is grouped as a matrix from the
combined left leg `(vL.p0, q0)` to the combined right leg
`(q1, p1.vR)`: `a : A` stands for the combined `vL.p0` index and
`b : B` for `p1.vR`.  The auxiliary unitary acts on the pair
`(q0, q1)`, which straddles the two sides.  The SVD collaborator
`npc.svd` is abstracted as an oracle whose output is constrained by
the SVD contract `IsSVDOf`. -/

noncomputable section RenyiEntropy

open Matrix

variable {A Q0 Q1 B : Type}
variable [Fintype A] [Fintype Q0] [Fintype Q1] [Fintype B]
variable [DecidableEq Q0] [DecidableEq Q1]

/-- Source line 254: `U_theta = npc.tensordot(U, theta, axes=([q0*,
q1*], [q0, q1]))`, the auxiliary unitary contracted onto the `q` legs
of the wavefunction. -/
def applyUq (U : Matrix (Q0 × Q1) (Q0 × Q1) ℂ)
    (th : Matrix (A × Q0) (Q1 × B) ℂ) : Matrix (A × Q0) (Q1 × B) ℂ :=
  fun l r => ∑ q : Q0 × Q1, U (l.2, r.1) q * th (l.1, q.1) (q.2, r.2)

/-- Source line 257: `U_theta` contracted with its conjugate over the
right legs `p1, q1, vR`; the left reduced density matrix
`psi * psiᴴ`. -/
def renyiRho (ps : Matrix (A × Q0) (Q1 × B) ℂ) :
    Matrix (A × Q0) (A × Q0) ℂ :=
  ps * psᴴ

/-- Source line 260: `U_theta.conj()` contracted over the left legs
`vL*, p0*, q0*` with the previous tensor; in matrix form
`psᴴ * (ps * psᴴ)`. -/
def renyiEnvHalf (ps : Matrix (A × Q0) (Q1 × B) ℂ) :
    Matrix (Q1 × B) (A × Q0) ℂ :=
  psᴴ * renyiRho ps

/-- Source line 262 as a function of the partially contracted network
`H`: the original `theta` contracted over `vL, p0, vR, p1` with `H`,
leaving the four auxiliary legs; rows are the unstarred pair
`(q0, q1)`, columns the starred pair. -/
def renyiEnvGen (th : Matrix (A × Q0) (Q1 × B) ℂ)
    (H : Matrix (Q1 × B) (A × Q0) ℂ) : Matrix (Q0 × Q1) (Q0 × Q1) ℂ :=
  fun q qs => ∑ a : A, ∑ b : B,
    th (a, q.1) (q.2, b) * H (qs.2, b) (a, qs.1)

/-- Source lines 254-262: the full environment (gradient) tensor `dS`
of `disentangle_renyi_iter`, already in the matrix form produced by
`combine_legs([[q0, q1], [q0*, q1*]])` on line 266. -/
def renyiEnv (th : Matrix (A × Q0) (Q1 × B) ℂ)
    (U : Matrix (Q0 × Q1) (Q0 × Q1) ℂ) : Matrix (Q0 × Q1) (Q0 × Q1) ℂ :=
  renyiEnvGen th (renyiEnvHalf (applyUq U th))

/-- Source line 264: `S2 = npc.inner(U, dS, axes=[[q0, q1, q0*, q1*],
[q0*, q1*, q0, q1]])`, the pairing of the current unitary with the
environment; in matrix form `trace(dS * U)`. -/
def renyiS2c (th : Matrix (A × Q0) (Q1 × B) ℂ)
    (U : Matrix (Q0 × Q1) (Q0 × Q1) ℂ) : ℂ :=
  Matrix.trace (renyiEnv th U * U)

/-- Source line 271 return value: the Renyi-2 entropy
`-np.log(S2.real)`. -/
def renyiS2 (th : Matrix (A × Q0) (Q1 × B) ℂ)
    (U : Matrix (Q0 × Q1) (Q0 × Q1) ℂ) : ℝ :=
  -Real.log (renyiS2c th U).re

/-- Source lines 268-269: `W, Y, VH = npc.svd(dS)` followed by
`new_U = npc.tensordot(W, VH, axes=[1, 0]).conj()`.  Since `npc.conj`
toggles every leg label, the resulting operator on the auxiliary pair
is the conjugate transpose `(W * VH)ᴴ` (the code comment calls it
`V W^dagger`). -/
def renyiNewU (W VH : Matrix (Q0 × Q1) (Q0 × Q1) ℂ) :
    Matrix (Q0 × Q1) (Q0 × Q1) ℂ :=
  (W * VH)ᴴ

/-- Reshaping of the wavefunction into a matrix from the auxiliary
pair `(q0, q1)` to the passive pair `(a, b)`; this is the grouping on
which the auxiliary unitary acts by left multiplication. -/
def reshapeQ (th : Matrix (A × Q0) (Q1 × B) ℂ) :
    Matrix (Q0 × Q1) (A × B) ℂ :=
  fun q ab => th (ab.1, q.1) (q.2, ab.2)

/-- Companion reshaping for the half-contracted network. -/
def reshapeH (H : Matrix (Q1 × B) (A × Q0) ℂ) :
    Matrix (Q0 × Q1) (A × B) ℂ :=
  fun q ab => H (q.2, ab.2) (ab.1, q.1)

/-- Helper: applying the auxiliary unitary is left multiplication on
the reshaped wavefunction. -/
theorem reshapeQ_applyUq (V : Matrix (Q0 × Q1) (Q0 × Q1) ℂ)
    (th : Matrix (A × Q0) (Q1 × B) ℂ) :
    reshapeQ (applyUq V th) = V * reshapeQ th := by
  funext q ab
  simp only [reshapeQ, applyUq, Matrix.mul_apply]

/-- Helper: the environment network is a matrix product of the two
reshaped tensors. -/
theorem renyiEnvGen_eq (th : Matrix (A × Q0) (Q1 × B) ℂ)
    (H : Matrix (Q1 × B) (A × Q0) ℂ) :
    renyiEnvGen th H = reshapeQ th * (reshapeH H)ᵀ := by
  funext q qs
  simp only [renyiEnvGen, Matrix.mul_apply, Matrix.transpose_apply,
    reshapeQ, reshapeH, Fintype.sum_prod_type]

/-- Helper: the trace pairing is preserved by the reshaping. -/
theorem trace_mul_reshape (ps : Matrix (A × Q0) (Q1 × B) ℂ)
    (H : Matrix (Q1 × B) (A × Q0) ℂ) :
    Matrix.trace (ps * H) = Matrix.trace (reshapeQ ps * (reshapeH H)ᵀ) := by
  simp only [Matrix.trace, Matrix.diag_apply, Matrix.mul_apply,
    Matrix.transpose_apply, reshapeQ, reshapeH, Fintype.sum_prod_type]
  conv_lhs => rw [Finset.sum_comm]
  exact Finset.sum_congr rfl fun q0 hq0 => Finset.sum_comm

/-- Helper (key pairing identity): contracting any auxiliary operator
`V` with the environment computed from `theta` and `U` equals the
pairing of the `V`-transformed wavefunction with the half-contracted
network of the `U`-transformed one. -/
theorem trace_renyiEnv_mul (th : Matrix (A × Q0) (Q1 × B) ℂ)
    (U V : Matrix (Q0 × Q1) (Q0 × Q1) ℂ) :
    Matrix.trace (renyiEnv th U * V)
      = Matrix.trace (applyUq V th * renyiEnvHalf (applyUq U th)) := by
  rw [show renyiEnv th U = renyiEnvGen th (renyiEnvHalf (applyUq U th))
    from rfl]
  rw [renyiEnvGen_eq, trace_mul_reshape (applyUq V th), reshapeQ_applyUq]
  rw [Matrix.trace_mul_comm, Matrix.mul_assoc]

end RenyiEntropy

/-! ## Frobenius norm, Cauchy-Schwarz and unitary helpers -/

noncomputable section MatrixAnalysis

open Matrix

variable {m n : Type} [Fintype m] [Fintype n]

/-- Squared Frobenius norm of a complex matrix. -/
def frobNormSq (X : Matrix m n ℂ) : ℝ :=
  ∑ p : m × n, Complex.normSq (X p.1 p.2)

theorem frobNormSq_nonneg (X : Matrix m n ℂ) : 0 ≤ frobNormSq X :=
  Finset.sum_nonneg fun p _ => Complex.normSq_nonneg _

/-- Helper: `trace (X Xᴴ)` is the squared Frobenius norm. -/
theorem trace_mul_conjTranspose_self (X : Matrix m n ℂ) :
    Matrix.trace (X * Xᴴ) = (frobNormSq X : ℂ) := by
  simp only [Matrix.trace, Matrix.diag_apply, Matrix.mul_apply,
    Matrix.conjTranspose_apply, frobNormSq, Fintype.sum_prod_type]
  push_cast
  refine Finset.sum_congr rfl fun i _ => Finset.sum_congr rfl fun j _ => ?_
  rw [show star (X i j) = (starRingEnd ℂ) (X i j) from rfl]
  exact Complex.mul_conj _

theorem frobNormSq_re (X : Matrix m n ℂ) :
    frobNormSq X = (Matrix.trace (X * Xᴴ)).re := by
  rw [trace_mul_conjTranspose_self]
  exact (Complex.ofReal_re _).symm

/-- Helper: a matrix with vanishing Frobenius norm is zero. -/
theorem matrix_eq_zero_of_frobNormSq (X : Matrix m n ℂ)
    (h : frobNormSq X = 0) : X = 0 := by
  funext i j
  have hp : ∀ p ∈ (Finset.univ : Finset (m × n)),
      (0 : ℝ) ≤ Complex.normSq (X p.1 p.2) :=
    fun p _ => Complex.normSq_nonneg _
  have h0 := (Finset.sum_eq_zero_iff_of_nonneg hp).mp h (i, j)
    (Finset.mem_univ _)
  simpa using Complex.normSq_eq_zero.mp h0

/-- Cauchy-Schwarz for the Hilbert-Schmidt pairing of two complex
matrices. -/
theorem trace_mul_conjTranspose_abs_le (X Y : Matrix m n ℂ) :
    Complex.abs (Matrix.trace (X * Yᴴ)) ≤
      Real.sqrt (frobNormSq X) * Real.sqrt (frobNormSq Y) := by
  have ht : Matrix.trace (X * Yᴴ)
      = ∑ p : m × n, X p.1 p.2 * star (Y p.1 p.2) := by
    simp only [Matrix.trace, Matrix.diag_apply, Matrix.mul_apply,
      Matrix.conjTranspose_apply, Fintype.sum_prod_type]
  rw [ht]
  calc Complex.abs (∑ p : m × n, X p.1 p.2 * star (Y p.1 p.2))
      ≤ ∑ p : m × n, Complex.abs (X p.1 p.2 * star (Y p.1 p.2)) :=
        Complex.abs.sum_le _ _
    _ = ∑ p : m × n, Complex.abs (X p.1 p.2) * Complex.abs (Y p.1 p.2) := by
        refine Finset.sum_congr rfl fun p _ => ?_
        rw [Complex.abs.map_mul, show star (Y p.1 p.2)
          = (starRingEnd ℂ) (Y p.1 p.2) from rfl, Complex.abs_conj]
    _ ≤ Real.sqrt (∑ p : m × n, Complex.abs (X p.1 p.2) ^ 2) *
          Real.sqrt (∑ p : m × n, Complex.abs (Y p.1 p.2) ^ 2) :=
        Real.sum_mul_le_sqrt_mul_sqrt _ _ _
    _ = Real.sqrt (frobNormSq X) * Real.sqrt (frobNormSq Y) := by
        simp only [Complex.sq_abs, frobNormSq]

/-- A matrix is unitary when multiplication by its conjugate transpose
on either side yields the identity. -/
def UnitaryM {k : Type} [Fintype k] [DecidableEq k]
    (M : Matrix k k ℂ) : Prop :=
  Mᴴ * M = 1 ∧ M * Mᴴ = 1

theorem unitaryM_mul {k : Type} [Fintype k] [DecidableEq k]
    {X Z : Matrix k k ℂ}
    (hX : UnitaryM X) (hZ : UnitaryM Z) : UnitaryM (X * Z) := by
  unfold UnitaryM at hX hZ ⊢
  constructor
  · rw [Matrix.conjTranspose_mul]
    have h1 : Zᴴ * Xᴴ * (X * Z) = Zᴴ * (Xᴴ * X) * Z := by
      rw [Matrix.mul_assoc, Matrix.mul_assoc, Matrix.mul_assoc]
    rw [h1, hX.1, Matrix.mul_one, hZ.1]
  · rw [Matrix.conjTranspose_mul]
    have h1 : X * Z * (Zᴴ * Xᴴ) = X * (Z * Zᴴ) * Xᴴ := by
      rw [Matrix.mul_assoc, Matrix.mul_assoc, Matrix.mul_assoc]
    rw [h1, hZ.2, Matrix.mul_one, hX.2]

theorem unitaryM_conjTranspose {k : Type} [Fintype k] [DecidableEq k]
    {X : Matrix k k ℂ}
    (hX : UnitaryM X) : UnitaryM Xᴴ := by
  unfold UnitaryM at hX ⊢
  constructor
  · rw [Matrix.conjTranspose_conjTranspose]
    exact hX.2
  · rw [Matrix.conjTranspose_conjTranspose]
    exact hX.1

/-- Helper: trace of a diagonal matrix times a square matrix. -/
theorem trace_diagonal_mul {k : Type} [Fintype k] [DecidableEq k]
    (d : k → ℂ) (N : Matrix k k ℂ) :
    Matrix.trace (Matrix.diagonal d * N) = ∑ i, d i * N i i := by
  simp only [Matrix.trace, Matrix.diag_apply, Matrix.mul_apply,
    Matrix.diagonal_apply, ite_mul, zero_mul]
  exact Finset.sum_congr rfl fun i _ => by
    rw [Finset.sum_ite_eq]
    simp

/-- Helper: every entry of a unitary matrix has modulus at most one. -/
theorem unitary_diag_abs_le_one {k : Type} [Fintype k] [DecidableEq k]
    (N : Matrix k k ℂ) (h : Nᴴ * N = 1) (i : k) :
    Complex.abs (N i i) ≤ 1 := by
  have h1 : (Nᴴ * N) i i = 1 := by rw [h]; simp [Matrix.one_apply]
  have hsum : (Nᴴ * N) i i = ((∑ j, Complex.normSq (N j i) : ℝ) : ℂ) := by
    simp only [Matrix.mul_apply, Matrix.conjTranspose_apply]
    push_cast
    refine Finset.sum_congr rfl fun j _ => ?_
    rw [show star (N j i) = (starRingEnd ℂ) (N j i) from rfl, mul_comm]
    exact Complex.mul_conj _
  have h2 : (∑ j, Complex.normSq (N j i) : ℝ) = 1 := by
    rw [hsum] at h1
    exact_mod_cast h1
  have h3 : Complex.normSq (N i i) ≤ 1 :=
    h2 ▸ Finset.single_le_sum (fun j _ => Complex.normSq_nonneg (N j i))
      (Finset.mem_univ i)
  calc Complex.abs (N i i) = Real.sqrt (Complex.normSq (N i i)) :=
        Complex.abs_apply
    _ ≤ Real.sqrt 1 := Real.sqrt_le_sqrt h3
    _ = 1 := Real.sqrt_one

/-- Contract of the tensor-algebra collaborator `npc.svd` on a square
matrix `M`: unitary factors and non-negative singular values with
`M = W Y VH`. -/
def IsSVDOf {k : Type} [Fintype k] [DecidableEq k] (M W : Matrix k k ℂ)
    (Y : k → ℝ) (VH : Matrix k k ℂ) : Prop :=
  M = W * Matrix.diagonal (fun i => (Y i : ℂ)) * VH ∧
  UnitaryM W ∧ UnitaryM VH ∧ ∀ i, 0 ≤ Y i

/-- Helper: the Procrustes update attains the sum of the singular
values: `trace(M (W VH)ᴴ) = trace Y`. -/
theorem trace_svd_newU {k : Type} [Fintype k] [DecidableEq k]
    {M W : Matrix k k ℂ} {Y : k → ℝ} {VH : Matrix k k ℂ}
    (h : IsSVDOf M W Y VH) :
    Matrix.trace (M * (W * VH)ᴴ) = ((∑ i, Y i : ℝ) : ℂ) := by
  obtain ⟨hm, hW, hV, hY⟩ := h
  rw [hm, Matrix.conjTranspose_mul]
  have h1 : W * Matrix.diagonal (fun i => (Y i : ℂ)) * VH * (VHᴴ * Wᴴ)
      = W * Matrix.diagonal (fun i => (Y i : ℂ)) * Wᴴ := by
    rw [Matrix.mul_assoc (W * Matrix.diagonal fun i => (Y i : ℂ)),
      ← Matrix.mul_assoc VH, hV.2, Matrix.one_mul]
  rw [h1, Matrix.trace_mul_comm, ← Matrix.mul_assoc, hW.1,
    Matrix.one_mul, Matrix.trace_diagonal]
  push_cast
  rfl

/-- Helper (Procrustes optimality): against any unitary `U`, the real
part of the pairing `trace(M U)` is at most the sum of the singular
values of `M`. -/
theorem trace_mul_unitary_re_le {k : Type} [Fintype k] [DecidableEq k]
    {M W : Matrix k k ℂ} {Y : k → ℝ} {VH : Matrix k k ℂ}
    (U : Matrix k k ℂ) (h : IsSVDOf M W Y VH) (hU : UnitaryM U) :
    (Matrix.trace (M * U)).re ≤ ∑ i, Y i := by
  obtain ⟨hm, hW, hV, hY⟩ := h
  have hcyc : Matrix.trace (M * U)
      = Matrix.trace (Matrix.diagonal (fun i => (Y i : ℂ)) * (VH * U * W)) := by
    rw [hm, Matrix.mul_assoc (W * Matrix.diagonal fun i => (Y i : ℂ)) VH U,
      Matrix.trace_mul_comm, ← Matrix.mul_assoc (VH * U) W,
      Matrix.trace_mul_comm]
  rw [hcyc, trace_diagonal_mul, Complex.re_sum]
  have hN : UnitaryM (VH * U * W) := unitaryM_mul (unitaryM_mul hV hU) hW
  refine Finset.sum_le_sum fun i _ => ?_
  rw [Complex.re_ofReal_mul]
  calc Y i * ((VH * U * W) i i).re
      ≤ Y i * 1 := by
        refine mul_le_mul_of_nonneg_left ?_ (hY i)
        exact le_trans (Complex.re_le_abs _)
          (unitary_diag_abs_le_one _ hN.1 i)
    _ = Y i := mul_one _

end MatrixAnalysis

/-! ## Monotonicity of the Renyi-2 entropy along the iteration -/

noncomputable section RenyiMonotone

open Matrix

variable {A Q0 Q1 B : Type}
variable [Fintype A] [Fintype Q0] [Fintype Q1] [Fintype B]
variable [DecidableEq Q0] [DecidableEq Q1]

/-- Purity `trace(rho_L^2)` of the transformed wavefunction: the
squared Frobenius norm of its left reduced density matrix. -/
def purity (ps : Matrix (A × Q0) (Q1 × B) ℂ) : ℝ :=
  frobNormSq (ps * psᴴ)

theorem rho_hermitian (ps : Matrix (A × Q0) (Q1 × B) ℂ) :
    (ps * psᴴ)ᴴ = ps * psᴴ := by
  rw [Matrix.conjTranspose_mul, Matrix.conjTranspose_conjTranspose]

theorem sigma_hermitian (ps : Matrix (A × Q0) (Q1 × B) ℂ) :
    (psᴴ * ps)ᴴ = psᴴ * ps := by
  rw [Matrix.conjTranspose_mul, Matrix.conjTranspose_conjTranspose]

/-- Helper: pairing the wavefunction with its own half-contracted
network yields the purity. -/
theorem trace_mul_envHalf (ps : Matrix (A × Q0) (Q1 × B) ℂ) :
    Matrix.trace (ps * renyiEnvHalf ps) = (purity ps : ℂ) := by
  rw [renyiEnvHalf, renyiRho, ← Matrix.mul_assoc]
  conv_lhs => rw [show (ps * psᴴ) * (ps * psᴴ)
    = (ps * psᴴ) * (ps * psᴴ)ᴴ from by rw [rho_hermitian]]
  rw [trace_mul_conjTranspose_self]
  rfl

/-- Helper: the `S2` scalar of `disentangle_renyi_iter` is the purity
of the transformed wavefunction (a non-negative real). -/
theorem renyiS2c_eq_purity (th : Matrix (A × Q0) (Q1 × B) ℂ)
    (V : Matrix (Q0 × Q1) (Q0 × Q1) ℂ) :
    renyiS2c th V = (purity (applyUq V th) : ℂ) := by
  rw [renyiS2c, trace_renyiEnv_mul th V V, trace_mul_envHalf]

/-- Helper: purity of the left reduction equals purity of the right
reduction. -/
theorem frob_sigma_eq_purity (ps : Matrix (A × Q0) (Q1 × B) ℂ) :
    frobNormSq (psᴴ * ps) = purity ps := by
  rw [frobNormSq_re, purity, frobNormSq_re, sigma_hermitian, rho_hermitian]
  have h1 : Matrix.trace ((psᴴ * ps) * (psᴴ * ps))
      = Matrix.trace ((ps * psᴴ) * (ps * psᴴ)) := by
    calc Matrix.trace ((psᴴ * ps) * (psᴴ * ps))
        = Matrix.trace (psᴴ * (ps * (psᴴ * ps))) := by
          rw [Matrix.mul_assoc]
      _ = Matrix.trace ((ps * (psᴴ * ps)) * psᴴ) := by
          rw [Matrix.trace_mul_comm]
      _ = Matrix.trace ((ps * psᴴ) * (ps * psᴴ)) := by
          rw [← Matrix.mul_assoc ps psᴴ ps, Matrix.mul_assoc (ps * psᴴ)]
  rw [h1]

/-- Helper: the purity never decreases under one Procrustes update of
`disentangle_renyi_iter`; moreover a vanishing purity stays zero. -/
theorem purity_le_step (th : Matrix (A × Q0) (Q1 × B) ℂ)
    (U W : Matrix (Q0 × Q1) (Q0 × Q1) ℂ) (Y : Q0 × Q1 → ℝ)
    (VH : Matrix (Q0 × Q1) (Q0 × Q1) ℂ)
    (hU : UnitaryM U) (hsvd : IsSVDOf (renyiEnv th U) W Y VH) :
    purity (applyUq U th) ≤ purity (applyUq (renyiNewU W VH) th) ∧
    (purity (applyUq U th) = 0 → purity (applyUq (renyiNewU W VH) th) = 0) := by
  set ps := applyUq U th with hps
  set ps2 := applyUq (renyiNewU W VH) th with hps2
  have hp0 : 0 ≤ purity ps := frobNormSq_nonneg _
  have hp20 : 0 ≤ purity ps2 := frobNormSq_nonneg _
  have ha0 : 0 ≤ frobNormSq (ps2 * psᴴ) := frobNormSq_nonneg _
  -- the current pairing value is the purity and is below the singular sum
  have hA : purity ps ≤ ∑ i, Y i := by
    have h1 : (Matrix.trace (renyiEnv th U * U)).re = purity ps := by
      rw [show Matrix.trace (renyiEnv th U * U) = renyiS2c th U from rfl,
        renyiS2c_eq_purity]
      exact Complex.ofReal_re _
    have h2 := trace_mul_unitary_re_le U hsvd hU
    rw [h1] at h2
    exact h2
  -- the singular sum is the cross pairing of the new and old states
  have hB : ((∑ i, Y i : ℝ) : ℂ)
      = Matrix.trace ((ps2 * psᴴ) * (ps * psᴴ)) := by
    have h1 := trace_svd_newU hsvd
    rw [show (W * VH)ᴴ = renyiNewU W VH from rfl] at h1
    have h2 := trace_renyiEnv_mul th U (renyiNewU W VH)
    rw [← h1, h2, renyiEnvHalf, renyiRho, ← Matrix.mul_assoc]
  -- Cauchy-Schwarz bounds
  have hC : (∑ i, Y i) ≤ Real.sqrt (frobNormSq (ps2 * psᴴ)) *
      Real.sqrt (purity ps) := by
    have habs := trace_mul_conjTranspose_abs_le (ps2 * psᴴ) (ps * psᴴ)
    rw [rho_hermitian] at habs
    calc (∑ i, Y i) = (((∑ i, Y i : ℝ) : ℂ)).re := (Complex.ofReal_re _).symm
      _ = (Matrix.trace ((ps2 * psᴴ) * (ps * psᴴ))).re := by rw [hB]
      _ ≤ Complex.abs (Matrix.trace ((ps2 * psᴴ) * (ps * psᴴ))) :=
          Complex.re_le_abs _
      _ ≤ Real.sqrt (frobNormSq (ps2 * psᴴ)) * Real.sqrt (purity ps) := habs
  have hD : frobNormSq (ps2 * psᴴ) ≤ Real.sqrt (purity ps) *
      Real.sqrt (purity ps2) := by
    have h1 : frobNormSq (ps2 * psᴴ)
        = (Matrix.trace ((psᴴ * ps) * (ps2ᴴ * ps2))).re := by
      rw [frobNormSq_re]
      have h2 : (ps2 * psᴴ)ᴴ = ps * ps2ᴴ := by
        rw [Matrix.conjTranspose_mul, Matrix.conjTranspose_conjTranspose]
      rw [h2]
      have h3 : Matrix.trace ((ps2 * psᴴ) * (ps * ps2ᴴ))
          = Matrix.trace ((psᴴ * ps) * (ps2ᴴ * ps2)) := by
        calc Matrix.trace ((ps2 * psᴴ) * (ps * ps2ᴴ))
            = Matrix.trace (ps2 * (psᴴ * (ps * ps2ᴴ))) := by
              rw [Matrix.mul_assoc]
          _ = Matrix.trace ((psᴴ * (ps * ps2ᴴ)) * ps2) := by
              rw [Matrix.trace_mul_comm]
          _ = Matrix.trace ((psᴴ * ps) * (ps2ᴴ * ps2)) := by
              rw [← Matrix.mul_assoc psᴴ ps ps2ᴴ,
                Matrix.mul_assoc (psᴴ * ps)]
      rw [h3]
    have h4 : Matrix.trace ((psᴴ * ps) * (ps2ᴴ * ps2))
        = Matrix.trace ((psᴴ * ps) * (ps2ᴴ * ps2)ᴴ) := by
      rw [sigma_hermitian]
    have h5 := trace_mul_conjTranspose_abs_le (psᴴ * ps) (ps2ᴴ * ps2)
    rw [frob_sigma_eq_purity, frob_sigma_eq_purity] at h5
    calc frobNormSq (ps2 * psᴴ)
        = (Matrix.trace ((psᴴ * ps) * (ps2ᴴ * ps2))).re := h1
      _ ≤ Complex.abs (Matrix.trace ((psᴴ * ps) * (ps2ᴴ * ps2))) :=
          Complex.re_le_abs _
      _ = Complex.abs (Matrix.trace ((psᴴ * ps) * (ps2ᴴ * ps2)ᴴ)) := by
          rw [← h4]
      _ ≤ Real.sqrt (purity ps) * Real.sqrt (purity ps2) := h5
  -- the zero case first
  have hzero : purity ps = 0 → purity ps2 = 0 := by
    intro h0
    have hrho : ps * psᴴ = 0 := matrix_eq_zero_of_frobNormSq _ h0
    have hps0 : ps = 0 := by
      have htr := trace_mul_conjTranspose_self ps
      rw [hrho, Matrix.trace_zero] at htr
      exact matrix_eq_zero_of_frobNormSq ps (by exact_mod_cast htr.symm)
    have hth : th = 0 := by
      have h1 : U * reshapeQ th = 0 := by
        rw [← reshapeQ_applyUq, ← hps, hps0]
        funext q ab
        simp [reshapeQ]
      have h2 : reshapeQ th = 0 := by
        have h3 := congrArg (fun M => Uᴴ * M) h1
        simpa [← Matrix.mul_assoc, hU.1] using h3
      funext l r
      have h4 := congrFun (congrFun h2 (l.2, r.1)) (l.1, r.2)
      simpa [reshapeQ] using h4
    have hps20 : ps2 = 0 := by
      rw [hps2, hth]
      funext l r
      simp [applyUq]
    rw [hps20]
    simp [purity, frobNormSq]
  refine ⟨?_, hzero⟩
  by_cases h0 : purity ps = 0
  · exact le_of_eq (by rw [h0, hzero h0])
  · have hppos : 0 < purity ps := lt_of_le_of_ne hp0 (Ne.symm h0)
    have hsp : 0 < Real.sqrt (purity ps) := Real.sqrt_pos.mpr hppos
    have h1 : purity ps ≤ Real.sqrt (frobNormSq (ps2 * psᴴ)) *
        Real.sqrt (purity ps) := le_trans hA hC
    have hmss : Real.sqrt (purity ps) * Real.sqrt (purity ps) = purity ps :=
      Real.mul_self_sqrt hp0
    have h2 : Real.sqrt (purity ps) ≤ Real.sqrt (frobNormSq (ps2 * psᴴ)) := by
      nlinarith [h1, hmss, hsp]
    have h3 : frobNormSq (ps2 * psᴴ) ≤
        Real.sqrt (frobNormSq (ps2 * psᴴ)) * Real.sqrt (purity ps2) := by
      calc frobNormSq (ps2 * psᴴ)
          ≤ Real.sqrt (purity ps) * Real.sqrt (purity ps2) := hD
        _ ≤ Real.sqrt (frobNormSq (ps2 * psᴴ)) * Real.sqrt (purity ps2) :=
            mul_le_mul_of_nonneg_right h2 (Real.sqrt_nonneg _)
    have hsa : 0 < Real.sqrt (frobNormSq (ps2 * psᴴ)) :=
      lt_of_lt_of_le hsp h2
    have hmaa : Real.sqrt (frobNormSq (ps2 * psᴴ)) *
        Real.sqrt (frobNormSq (ps2 * psᴴ)) = frobNormSq (ps2 * psᴴ) :=
      Real.mul_self_sqrt ha0
    have h4 : Real.sqrt (frobNormSq (ps2 * psᴴ)) ≤ Real.sqrt (purity ps2) := by
      nlinarith [h3, hmaa, hsa]
    calc purity ps = Real.sqrt (purity ps) * Real.sqrt (purity ps) :=
          hmss.symm
      _ ≤ Real.sqrt (purity ps2) * Real.sqrt (purity ps2) := by
          have h5 : Real.sqrt (purity ps) ≤ Real.sqrt (purity ps2) :=
            le_trans h2 h4
          exact mul_le_mul h5 h5 (Real.sqrt_nonneg _) (Real.sqrt_nonneg _)
      _ = purity ps2 := Real.mul_self_sqrt hp20

/-- Helper: one iteration of `disentangle_renyi_iter` does not
increase the Renyi-2 entropy. -/
theorem renyiS2_step (th : Matrix (A × Q0) (Q1 × B) ℂ)
    (U W : Matrix (Q0 × Q1) (Q0 × Q1) ℂ) (Y : Q0 × Q1 → ℝ)
    (VH : Matrix (Q0 × Q1) (Q0 × Q1) ℂ)
    (hU : UnitaryM U) (hsvd : IsSVDOf (renyiEnv th U) W Y VH) :
    renyiS2 th (renyiNewU W VH) ≤ renyiS2 th U := by
  obtain ⟨hle, hz⟩ := purity_le_step th U W Y VH hU hsvd
  have hre1 : (renyiS2c th U).re = purity (applyUq U th) := by
    rw [renyiS2c_eq_purity]
    exact Complex.ofReal_re _
  have hre2 : (renyiS2c th (renyiNewU W VH)).re
      = purity (applyUq (renyiNewU W VH) th) := by
    rw [renyiS2c_eq_purity]
    exact Complex.ofReal_re _
  rw [renyiS2, renyiS2, hre1, hre2]
  by_cases h0 : purity (applyUq U th) = 0
  · rw [h0, hz h0]
  · have hpos : 0 < purity (applyUq U th) :=
      lt_of_le_of_ne (frobNormSq_nonneg _) (Ne.symm h0)
    exact neg_le_neg (Real.log_le_log hpos hle)

/-- Sequence of unitaries produced by iterating
`disentangle_renyi_iter` from the identity start of
`disentangle_renyi` (source line 204), with the SVD of the environment
supplied by the oracle `svdf`. -/
def renyiUseq (th : Matrix (A × Q0) (Q1 × B) ℂ)
    (svdf : Matrix (Q0 × Q1) (Q0 × Q1) ℂ →
      Matrix (Q0 × Q1) (Q0 × Q1) ℂ × ((Q0 × Q1) → ℝ) ×
      Matrix (Q0 × Q1) (Q0 × Q1) ℂ) : Nat → Matrix (Q0 × Q1) (Q0 × Q1) ℂ
  | 0 => 1
  | n + 1 =>
      renyiNewU (svdf (renyiEnv th (renyiUseq th svdf n))).1
        (svdf (renyiEnv th (renyiUseq th svdf n))).2.2

/-- Renyi-2 entropy value computed at iteration `n + 1` of
`disentangle_renyi` (the `S2` of `disentangle_renyi_iter(theta,
renyiUseq n)`). -/
def renyiSseq (th : Matrix (A × Q0) (Q1 × B) ℂ)
    (svdf : Matrix (Q0 × Q1) (Q0 × Q1) ℂ →
      Matrix (Q0 × Q1) (Q0 × Q1) ℂ × ((Q0 × Q1) → ℝ) ×
      Matrix (Q0 × Q1) (Q0 × Q1) ℂ) (n : Nat) : ℝ :=
  renyiS2 th (renyiUseq th svdf n)

/-- Claim C4: for every input wavefunction `theta` and every SVD
oracle obeying the `npc.svd` contract on the environments actually
encountered, the sequence of Renyi-2 entropy values produced by
successive iterations of the Renyi optimizer — each iteration
replacing `U` by the orthogonal-Procrustes solution
`conj(W * VH) = (W * VH)ᴴ` built from the SVD of the gradient tensor —
is non-increasing from one iteration to the next. -/
theorem renyi_entropy_monotone (th : Matrix (A × Q0) (Q1 × B) ℂ)
    (svdf : Matrix (Q0 × Q1) (Q0 × Q1) ℂ →
      Matrix (Q0 × Q1) (Q0 × Q1) ℂ × ((Q0 × Q1) → ℝ) ×
      Matrix (Q0 × Q1) (Q0 × Q1) ℂ)
    (hsvd : ∀ n, IsSVDOf (renyiEnv th (renyiUseq th svdf n))
      (svdf (renyiEnv th (renyiUseq th svdf n))).1
      (svdf (renyiEnv th (renyiUseq th svdf n))).2.1
      (svdf (renyiEnv th (renyiUseq th svdf n))).2.2) :
    ∀ n, renyiSseq th svdf (n + 1) ≤ renyiSseq th svdf n := by
  have hunit : ∀ j, UnitaryM (renyiUseq th svdf j) := by
    intro j
    induction j with
    | zero =>
        unfold UnitaryM
        constructor
        · simp [renyiUseq]
        · simp [renyiUseq]
    | succ j ihj =>
        obtain ⟨hm, hW, hV, hY⟩ := hsvd j
        exact unitaryM_conjTranspose (unitaryM_mul hW hV)
  intro n
  exact renyiS2_step th (renyiUseq th svdf n) _ _ _ (hunit n) (hsvd n)

/-- Helper: the environment of the zero wavefunction vanishes. -/
theorem renyiEnv_zero (U : Matrix (Q0 × Q1) (Q0 × Q1) ℂ) :
    renyiEnv (0 : Matrix (A × Q0) (Q1 × B) ℂ) U = 0 := by
  funext q qs
  simp [renyiEnv, renyiEnvGen]

end RenyiMonotone

/-- Witness for C4: the concrete one-dimensional zero wavefunction
with the trivial SVD oracle. -/
theorem renyi_entropy_monotone_witness :
    renyiSseq (0 : Matrix (Fin 1 × Fin 1) (Fin 1 × Fin 1) ℂ)
      (fun _ => (1, fun _ => 0, 1)) 1 ≤
    renyiSseq (0 : Matrix (Fin 1 × Fin 1) (Fin 1 × Fin 1) ℂ)
      (fun _ => (1, fun _ => 0, 1)) 0 := by
  refine renyi_entropy_monotone
    (0 : Matrix (Fin 1 × Fin 1) (Fin 1 × Fin 1) ℂ)
    (fun _ => (1, fun _ => 0, 1)) (fun n => ?_) 0
  refine ⟨?_, ⟨?_, ?_⟩, ⟨?_, ?_⟩, fun i => le_refl 0⟩
  · simp [renyiEnv_zero]
  · simp
  · simp
  · simp
  · simp

end PurificationTEBD
